import Mathlib

/-!
Shallow embedding of the string intern table of `src/src/intern_table.cc`
(class `art::InternTable`).

Modelling choices, documented once here:

* A managed string (`art::String`) is opaque to the intern table: it offers a
  content hash (`GetHashCode`), value equality (`Equals`) and pointer identity.
  We model it as `ArtString`, a pair of a reference identity `ref` and a
  content value `val`.  Pointer identity is equality of the whole `ArtString`;
  value equality compares `val` only.  The content-derived hash function is a
  parameter `hf : Nat → Nat` applied to `val`, so hash stability and
  content-derivedness hold by construction, and hash collisions are allowed
  (`hf` need not be injective).

* The `Table` type is declared in `intern_table.h`, which is not part of the
  sources; per the specification (§3, §4.1) it is a multimap from a content
  hash to one or more string references, with in-bucket linear scan for value
  equality.  We model it as a list of `(hash, string)` pairs, with `insert`
  appending and lookup returning the first value-equal entry whose key equals
  the probed hash.  The C++ loops in `Lookup` and `Remove` iterate from
  `table.find(hash_code)` to `table.end()`, i.e. they may also visit entries
  with other keys; since every entry is inserted under the hash of its own
  content and value-equal strings share a hash, entries under other keys can
  never satisfy the loop's match condition, so restricting the scan to the
  probed key is behaviour-preserving.

* Effects are made explicit: mutating operations return the new table state,
  `VisitRoots` returns the list of references passed to the visitor (in
  invocation order), and `SweepInternTableWeaks` additionally returns the list
  of arguments on which the liveness predicate `is_marked` was invoked.
  Nullable `String*` parameters and results of the public entry points are
  `Option ArtString`; dereferencing a null pointer is a fault, modelled as
  `none` where it can occur (`ContainsWeakP`).
-/

namespace InternSpec

/-- Model of the managed string object: `ref` is the reference identity (the
pointer), `val` the immutable content value. -/
structure ArtString where
  ref : Nat
  val : Nat
deriving DecidableEq

/-- Model of `String::Equals`: value equality, comparing content only. -/
def Equals (a b : ArtString) : Bool :=
  a.val == b.val

/-- Model of `String::GetHashCode` for a content-derived hash function `hf`. -/
def GetHashCode (hf : Nat → Nat) (s : ArtString) : Nat :=
  hf s.val

/-- Modelled from the spec: the `Table` type lives in `intern_table.h`, which
is missing from the sources; spec §3 describes it as an unordered multimap
from a 32-bit content hash to one or more string references.  We model it as
a list of (hash, reference) pairs. -/
abbrev Table := List (Nat × ArtString)

/-- The string references stored in a table, in iteration order. -/
def vals (tb : Table) : List ArtString :=
  tb.map Prod.snd

/-- Model of `InternTable::Lookup` (intern_table.cc:48-58): scan the bucket of
`hash_code` and return the first entry value-equal to `s`, or null. -/
def Lookup : Table → ArtString → Nat → Option ArtString
  | [], _, _ => none
  | p :: rest, s, hash_code =>
    if p.1 == hash_code && Equals p.2 s then some p.2 else Lookup rest s hash_code

/-- Model of the table-level `InternTable::Insert` (intern_table.cc:60-64):
add `s` under key `hash_code`, no duplicate check; the C++ version also
returns `s` for call-site convenience. -/
def InsertEntry (tb : Table) (s : ArtString) (hash_code : Nat) : Table :=
  tb ++ [(hash_code, s)]

/-- Model of `InternTable::Remove` (intern_table.cc:71-80): erase at most one
entry of the `hash_code` bucket whose stored reference is identical (pointer
equality) to `s`; no-op when absent. -/
def Remove : Table → ArtString → Nat → Table
  | [], _, _ => []
  | p :: rest, s, hash_code =>
    if p.1 = hash_code ∧ p.2 = s then rest else p :: Remove rest s hash_code

/-- Model of the `InternTable` state: the three tables guarded by the single
intern-table lock.  The lock itself is not modelled: every public operation
holds it for its whole duration, so operations are the atomic steps. -/
structure InternTable where
  strong_interns : Table
  weak_interns : Table
  image_strong_interns : Table
deriving DecidableEq

/-- The freshly constructed intern table (intern_table.cc:24-25). -/
def InternTable.empty : InternTable :=
  ⟨[], [], []⟩

/-- Model of `InternTable::Size` (intern_table.cc:27-30): strong plus weak
entry counts; image entries are excluded. -/
def InternTable.Size (t : InternTable) : Nat :=
  t.strong_interns.length + t.weak_interns.length

/-- Model of `InternTable::VisitRoots` (intern_table.cc:39-46): the list of
references passed to the visitor, one invocation per element, in order.  Weak
and image entries are deliberately not visited. -/
def InternTable.VisitRoots (t : InternTable) : List ArtString :=
  vals t.strong_interns

/-- Model of `InternTable::RegisterStrong` (intern_table.cc:66-69): insert `s`
into the image table under its hash, with no deduplication check. -/
def InternTable.RegisterStrong (hf : Nat → Nat) (t : InternTable) (s : ArtString) :
    InternTable :=
  { t with image_strong_interns := InsertEntry t.image_strong_interns s (GetHashCode hf s) }

/-- Model of the core `InternTable::Insert(String*, bool)`
(intern_table.cc:82-129): probe strong, then image, then weak; promote a weak
hit on a strong request; otherwise insert the candidate into the requested
table.  Returns the canonical string together with the new state. -/
def InternTable.Insert (hf : Nat → Nat) (t : InternTable) (s : ArtString)
    (is_strong : Bool) : ArtString × InternTable :=
  let hash_code := GetHashCode hf s
  if is_strong then
    match Lookup t.strong_interns s hash_code with
    | some strong => (strong, t)
    | none =>
      match Lookup t.image_strong_interns s hash_code with
      | some image => (image, t)
      | none =>
        match Lookup t.weak_interns s hash_code with
        | some weak =>
          (weak, { t with
                    weak_interns := Remove t.weak_interns weak hash_code,
                    strong_interns := InsertEntry t.strong_interns weak hash_code })
        | none =>
          (s, { t with strong_interns := InsertEntry t.strong_interns s hash_code })
  else
    match Lookup t.strong_interns s hash_code with
    | some strong => (strong, t)
    | none =>
      match Lookup t.image_strong_interns s hash_code with
      | some image => (image, t)
      | none =>
        match Lookup t.weak_interns s hash_code with
        | some weak => (weak, t)
        | none =>
          (s, { t with weak_interns := InsertEntry t.weak_interns s hash_code })

/-- Model of `InternTable::InternStrong(String*)` (intern_table.cc:139-144):
null in, null out; otherwise the core insertion with `is_strong = true`. -/
def InternTable.InternStrong (hf : Nat → Nat) (t : InternTable)
    (s : Option ArtString) : Option ArtString × InternTable :=
  match s with
  | none => (none, t)
  | some s =>
    let r := t.Insert hf s true
    (some r.1, r.2)

/-- Model of `InternTable::InternWeak` (intern_table.cc:146-151): null in,
null out; otherwise the core insertion with `is_strong = false`. -/
def InternTable.InternWeak (hf : Nat → Nat) (t : InternTable)
    (s : Option ArtString) : Option ArtString × InternTable :=
  match s with
  | none => (none, t)
  | some s =>
    let r := t.Insert hf s false
    (some r.1, r.2)

/-- Model of `InternTable::ContainsWeak` (intern_table.cc:153-157) for a
non-null argument: look `s` up in the weak table by value and compare the
result to `s` by pointer identity (a null lookup result compares unequal). -/
def InternTable.ContainsWeak (hf : Nat → Nat) (t : InternTable) (s : ArtString) :
    Bool :=
  decide (Lookup t.weak_interns s (GetHashCode hf s) = some s)

/-- Model of `InternTable::ContainsWeak` at the pointer level: the body
computes `s->GetHashCode()` before any null test (there is none), so a null
argument dereferences null; the fault is modelled as `none`. -/
def InternTable.ContainsWeakP (hf : Nat → Nat) (t : InternTable)
    (s : Option ArtString) : Option Bool :=
  match s with
  | none => none
  | some s => some (t.ContainsWeak hf s)

/-- Model of the erase loop of `InternTable::SweepInternTableWeaks`
(intern_table.cc:159-170) on one table: the first component is the table after
removing the entries the liveness predicate rejects, the second the list of
arguments the predicate was invoked on, in iteration order. -/
def sweepTable (is_marked : ArtString → Bool) : Table → Table × List ArtString
  | [] => ([], [])
  | p :: rest =>
    let r := sweepTable is_marked rest
    if is_marked p.2 then (p :: r.1, p.2 :: r.2) else (r.1, p.2 :: r.2)

/-- Model of `InternTable::SweepInternTableWeaks` (intern_table.cc:159-170):
sweep the weak table with the collector's liveness predicate; also returns the
invocation trace of the predicate. -/
def InternTable.SweepInternTableWeaks (is_marked : ArtString → Bool)
    (t : InternTable) : InternTable × List ArtString :=
  let r := sweepTable is_marked t.weak_interns
  ({ t with weak_interns := r.1 }, r.2)

/-!  Reachable states.  `RegisterStrong` is specified to run only at startup,
before any interning (spec §4.7), so a run of the system is a sequence of
image registrations followed by a sequence of intern/sweep operations. -/

/-- One post-startup operation on the intern table. -/
inductive Op where
  | strongOp (s : ArtString)
  | weakOp (s : ArtString)
  | sweepOp (is_marked : ArtString → Bool)

/-- Apply one post-startup operation to a state. -/
def applyOp (hf : Nat → Nat) (t : InternTable) : Op → InternTable
  | .strongOp s => (t.InternStrong hf (some s)).2
  | .weakOp s => (t.InternWeak hf (some s)).2
  | .sweepOp m => (t.SweepInternTableWeaks m).1

/-- Run a sequence of post-startup operations. -/
def runOps (hf : Nat → Nat) (t : InternTable) (ops : List Op) : InternTable :=
  ops.foldl (applyOp hf) t

/-- Startup: register a list of image strings into the empty table. -/
def registerAll (hf : Nat → Nat) (img : List ArtString) : InternTable :=
  img.foldl (fun t s => t.RegisterStrong hf s) InternTable.empty

/-- A state reachable under the claimed discipline alone: registrations happen
only at startup, before any interning, with no condition on the registered
strings. -/
def ReachableAny (hf : Nat → Nat) (t : InternTable) : Prop :=
  ∃ img ops, t = runOps hf (registerAll hf img) ops

/-- A state reachable under the startup discipline from a deduplicated image
source (spec §4.7: "the image source is assumed already deduplicated"). -/
def Reachable (hf : Nat → Nat) (t : InternTable) : Prop :=
  ∃ img ops, img.Pairwise (fun a b => a.val ≠ b.val) ∧
    t = runOps hf (registerAll hf img) ops

/-!  Well-formedness: the inductive invariant maintained by the operations. -/

/-- Every entry of `tb` is stored under the hash of its own content. -/
def hashOk (hf : Nat → Nat) (tb : Table) : Prop :=
  ∀ p ∈ tb, p.1 = hf p.2.val

/-- The inductive well-formedness invariant: every table is hash-consistent,
the strings of `strong ++ image` are pairwise value-distinct, the strings of
`weak` are pairwise value-distinct, and no weak string shares its value with a
strong or image string. -/
def WF (hf : Nat → Nat) (t : InternTable) : Prop :=
  hashOk hf t.strong_interns ∧
  hashOk hf t.weak_interns ∧
  hashOk hf t.image_strong_interns ∧
  (vals t.strong_interns ++ vals t.image_strong_interns).Pairwise
    (fun a b => a.val ≠ b.val) ∧
  (vals t.weak_interns).Pairwise (fun a b => a.val ≠ b.val) ∧
  ∀ w ∈ vals t.weak_interns,
    ∀ e ∈ vals t.strong_interns ++ vals t.image_strong_interns, w.val ≠ e.val

/-- Invariant I1 (spec §3) as claimed: across `strong ∪ image` at most one
reference represents any given content value; no value is simultaneously in
`strong` and `weak`; and every weak string is a different object from every
strong or image string. -/
def I1 (t : InternTable) : Prop :=
  (vals t.strong_interns ++ vals t.image_strong_interns).Pairwise
    (fun a b => a.val = b.val → a = b) ∧
  (∀ w ∈ vals t.weak_interns, ∀ e ∈ vals t.strong_interns, w.val ≠ e.val) ∧
  ∀ w ∈ vals t.weak_interns,
    ∀ e ∈ vals t.strong_interns ++ vals t.image_strong_interns, w ≠ e

instance WF.decidable (hf : Nat → Nat) (t : InternTable) : Decidable (WF hf t) := by
  unfold WF hashOk
  exact inferInstance

instance I1.decidable (t : InternTable) : Decidable (I1 t) := by
  unfold I1
  exact inferInstance

/-!  Basic lemmas about the table operations. -/

theorem lookup_some {tb : Table} {s r : ArtString} {h : Nat}
    (hl : Lookup tb s h = some r) : (h, r) ∈ tb ∧ r.val = s.val := by
  induction tb with
  | nil => simp [Lookup] at hl
  | cons p rest ih =>
    by_cases hc : (p.1 == h && Equals p.2 s) = true
    · simp only [Lookup, hc, if_true, Option.some.injEq] at hl
      simp only [Bool.and_eq_true, beq_iff_eq, Equals] at hc
      refine ⟨?_, hl ▸ hc.2⟩
      have : p = (h, r) := by
        cases p with
        | mk a b => simp only at hc hl; rw [hc.1, hl]
      exact this ▸ List.mem_cons_self _ _
    · simp only [Lookup, hc, if_false] at hl
      obtain ⟨hm, hv⟩ := ih hl
      exact ⟨List.mem_cons_of_mem _ hm, hv⟩

theorem lookup_none_of {tb : Table} {s : ArtString} {h : Nat}
    (hv : ∀ e ∈ vals tb, e.val ≠ s.val) : Lookup tb s h = none := by
  induction tb with
  | nil => rfl
  | cons p rest ih =>
    have hp : p.2.val ≠ s.val := hv p.2 (by simp [vals])
    have hc : (p.1 == h && Equals p.2 s) = false := by
      simp only [Equals, Bool.and_eq_false_iff, beq_eq_false_iff_ne]
      exact Or.inr hp
    simp only [Lookup, hc, Bool.false_eq_true, if_false]
    exact ih fun e he => hv e (by simp [vals] at he ⊢; exact Or.inr he)

theorem lookup_none_vals {hf : Nat → Nat} {tb : Table} {s : ArtString}
    (hok : hashOk hf tb) (hl : Lookup tb s (hf s.val) = none) :
    ∀ e ∈ vals tb, e.val ≠ s.val := by
  induction tb with
  | nil => simp [vals]
  | cons p rest ih =>
    by_cases hc : (p.1 == hf s.val && Equals p.2 s) = true
    · simp [Lookup, hc] at hl
    · intro e he
      simp only [vals, List.map_cons, List.mem_cons] at he
      rcases he with he | he
      · intro hev
        apply hc
        have hp1 : p.1 = hf p.2.val := hok p (List.mem_cons_self _ _)
        have hp2 : p.2.val = s.val := by rw [← he, hev]
        simp only [Bool.and_eq_true, beq_iff_eq, Equals]
        exact ⟨by rw [hp1, hp2], hp2⟩
      · simp only [Lookup, hc, Bool.false_eq_true, if_false] at hl
        exact ih (fun q hq => hok q (List.mem_cons_of_mem _ hq)) hl e he

theorem lookup_eq_of_mem {hf : Nat → Nat} {tb : Table} {s e : ArtString}
    (hok : hashOk hf tb)
    (hpw : (vals tb).Pairwise (fun a b => a.val ≠ b.val))
    (hm : e ∈ vals tb) (hev : e.val = s.val) :
    Lookup tb s (hf s.val) = some e := by
  induction tb with
  | nil => simp [vals] at hm
  | cons p rest ih =>
    simp only [vals, List.map_cons, List.mem_cons] at hm
    simp only [vals, List.map_cons, List.pairwise_cons] at hpw
    rcases hm with hm | hm
    · have hc : (p.1 == hf s.val && Equals p.2 s) = true := by
        have hp1 : p.1 = hf p.2.val := hok p (List.mem_cons_self _ _)
        simp only [Bool.and_eq_true, beq_iff_eq, Equals]
        exact ⟨by rw [hp1, ← hm, hev], by rw [← hm, hev]⟩
      simp [Lookup, hc, hm]
    · have hc : (p.1 == hf s.val && Equals p.2 s) = false := by
        have hne : p.2.val ≠ e.val := hpw.1 e hm
        simp only [Equals, Bool.and_eq_false_iff, beq_eq_false_iff_ne]
        exact Or.inr (hev ▸ hne)
      simp only [Lookup, hc, Bool.false_eq_true, if_false]
      exact ih (fun q hq => hok q (List.mem_cons_of_mem _ hq)) hpw.2 hm

theorem lookup_append_of_none {tb tb2 : Table} {s : ArtString} {h : Nat}
    (hl : Lookup tb s h = none) :
    Lookup (tb ++ tb2) s h = Lookup tb2 s h := by
  induction tb with
  | nil => rfl
  | cons p rest ih =>
    by_cases hc : (p.1 == h && Equals p.2 s) = true
    · simp [Lookup, hc] at hl
    · simp only [Lookup, hc, Bool.false_eq_true, if_false] at hl
      show Lookup (p :: (rest ++ tb2)) s h = Lookup tb2 s h
      simp only [Lookup, hc, Bool.false_eq_true, if_false]
      exact ih hl

theorem remove_sublist (tb : Table) (s : ArtString) (h : Nat) :
    (Remove tb s h).Sublist tb := by
  induction tb with
  | nil => simp [Remove]
  | cons p rest ih =>
    by_cases hc : p.1 = h ∧ p.2 = s
    · simp only [Remove, hc, if_true]
      exact List.sublist_cons_self _ _
    · simp only [Remove, hc, if_false]
      exact ih.cons₂ _

theorem not_mem_remove {hf : Nat → Nat} {tb : Table} {s : ArtString}
    (hok : hashOk hf tb)
    (hpw : (vals tb).Pairwise (fun a b => a.val ≠ b.val)) :
    s ∉ vals (Remove tb s (hf s.val)) := by
  induction tb with
  | nil => simp [Remove, vals]
  | cons p rest ih =>
    simp only [vals, List.map_cons, List.pairwise_cons] at hpw
    by_cases hc : p.1 = hf s.val ∧ p.2 = s
    · simp only [Remove, hc, if_true]
      intro hm
      exact (hc.2 ▸ hpw.1 s hm) rfl
    · simp only [Remove, hc, if_false, vals, List.map_cons, List.mem_cons]
      intro hm
      rcases hm with hm | hm
      · exact hc ⟨(hok p (List.mem_cons_self _ _)).trans (by rw [← hm]), hm.symm⟩
      · exact ih (fun q hq => hok q (List.mem_cons_of_mem _ hq)) hpw.2 hm

theorem eq_of_pairwise_val {l : List ArtString} {a b : ArtString}
    (hpw : l.Pairwise (fun a b => a.val ≠ b.val))
    (ha : a ∈ l) (hb : b ∈ l) (hv : a.val = b.val) : a = b := by
  induction l with
  | nil => simp at ha
  | cons c rest ih =>
    simp only [List.pairwise_cons] at hpw
    simp only [List.mem_cons] at ha hb
    rcases ha with ha | ha <;> rcases hb with hb | hb
    · rw [ha, hb]
    · exact absurd (ha ▸ hv) (hpw.1 b hb)
    · exact absurd (hb ▸ hv.symm) (hpw.1 a ha)
    · exact ih hpw.2 ha hb

theorem vals_insertEntry (tb : Table) (s : ArtString) (h : Nat) :
    vals (InsertEntry tb s h) = vals tb ++ [s] := by
  simp [vals, InsertEntry]

theorem sweepTable_trace (m : ArtString → Bool) (tb : Table) :
    (sweepTable m tb).2 = vals tb := by
  induction tb with
  | nil => rfl
  | cons p rest ih =>
    simp only [sweepTable, vals, List.map_cons]
    by_cases hc : m p.2 = true <;> simp [hc, ih, vals]

theorem sweepTable_filter (m : ArtString → Bool) (tb : Table) :
    (sweepTable m tb).1 = tb.filter (fun p => m p.2) := by
  induction tb with
  | nil => rfl
  | cons p rest ih =>
    simp only [sweepTable, List.filter_cons]
    by_cases hc : m p.2 = true <;> simp [hc, ih]

theorem length_filter_add_not (m : ArtString → Bool) (tb : Table) :
    (tb.filter (fun p => m p.2)).length + (tb.filter (fun p => !m p.2)).length
      = tb.length := by
  induction tb with
  | nil => rfl
  | cons p rest ih =>
    by_cases hc : m p.2 = true <;>
      simp [List.filter_cons, hc, ← ih] <;> omega

theorem mem_vals_of_mem {tb : Table} {h : Nat} {w : ArtString}
    (hm : (h, w) ∈ tb) : w ∈ vals tb :=
  List.mem_map.mpr ⟨(h, w), hm, rfl⟩

theorem vals_sublist {tb₁ tb₂ : Table} (hs : tb₁.Sublist tb₂) :
    (vals tb₁).Sublist (vals tb₂) :=
  hs.map Prod.snd

/-- Reduction of the core insertion on a strong-table hit: the existing entry
is returned and the state is unchanged, for both request strengths. -/
theorem Insert_hitS {hf : Nat → Nat} {t : InternTable} {s r : ArtString} (b : Bool)
    (hS : Lookup t.strong_interns s (hf s.val) = some r) :
    t.Insert hf s b = (r, t) := by
  cases b <;> simp [InternTable.Insert, GetHashCode, hS]

/-- Reduction of the core insertion on an image-table hit (no strong hit): the
image entry is returned and the state is unchanged, for both strengths. -/
theorem Insert_hitI {hf : Nat → Nat} {t : InternTable} {s r : ArtString} (b : Bool)
    (hS : Lookup t.strong_interns s (hf s.val) = none)
    (hI : Lookup t.image_strong_interns s (hf s.val) = some r) :
    t.Insert hf s b = (r, t) := by
  cases b <;> simp [InternTable.Insert, GetHashCode, hS, hI]

/-- Reduction of a strong request on a weak-table hit: the weak entry is
promoted (removed from weak, inserted into strong) and returned. -/
theorem Insert_true_hitW {hf : Nat → Nat} {t : InternTable} {s w : ArtString}
    (hS : Lookup t.strong_interns s (hf s.val) = none)
    (hI : Lookup t.image_strong_interns s (hf s.val) = none)
    (hW : Lookup t.weak_interns s (hf s.val) = some w) :
    t.Insert hf s true =
      (w, { t with
              strong_interns := InsertEntry t.strong_interns w (hf s.val),
              weak_interns := Remove t.weak_interns w (hf s.val) }) := by
  simp [InternTable.Insert, GetHashCode, hS, hI, hW]

/-- Reduction of a weak request on a weak-table hit: the weak entry is
returned and the state is unchanged. -/
theorem Insert_false_hitW {hf : Nat → Nat} {t : InternTable} {s w : ArtString}
    (hS : Lookup t.strong_interns s (hf s.val) = none)
    (hI : Lookup t.image_strong_interns s (hf s.val) = none)
    (hW : Lookup t.weak_interns s (hf s.val) = some w) :
    t.Insert hf s false = (w, t) := by
  simp [InternTable.Insert, GetHashCode, hS, hI, hW]

/-- Reduction of a strong request that misses everywhere: the candidate itself
is inserted into the strong table and returned. -/
theorem Insert_true_miss {hf : Nat → Nat} {t : InternTable} {s : ArtString}
    (hS : Lookup t.strong_interns s (hf s.val) = none)
    (hI : Lookup t.image_strong_interns s (hf s.val) = none)
    (hW : Lookup t.weak_interns s (hf s.val) = none) :
    t.Insert hf s true =
      (s, { t with strong_interns := InsertEntry t.strong_interns s (hf s.val) }) := by
  simp [InternTable.Insert, GetHashCode, hS, hI, hW]

/-- Reduction of a weak request that misses everywhere: the candidate itself
is inserted into the weak table and returned. -/
theorem Insert_false_miss {hf : Nat → Nat} {t : InternTable} {s : ArtString}
    (hS : Lookup t.strong_interns s (hf s.val) = none)
    (hI : Lookup t.image_strong_interns s (hf s.val) = none)
    (hW : Lookup t.weak_interns s (hf s.val) = none) :
    t.Insert hf s false =
      (s, { t with weak_interns := InsertEntry t.weak_interns s (hf s.val) }) := by
  simp [InternTable.Insert, GetHashCode, hS, hI, hW]

/-- Preservation of well-formedness by the core insertion algorithm. -/
theorem WF_insert {hf : Nat → Nat} {t : InternTable} (s : ArtString) (b : Bool)
    (hwf : WF hf t) : WF hf (t.Insert hf s b).2 := by
  obtain ⟨hokS, hokW, hokI, hSI, hWu, hWd⟩ := hwf
  cases hS : Lookup t.strong_interns s (hf s.val) with
  | some r =>
    rw [Insert_hitS b hS]
    exact ⟨hokS, hokW, hokI, hSI, hWu, hWd⟩
  | none =>
    have hSvals := lookup_none_vals hokS hS
    cases hI : Lookup t.image_strong_interns s (hf s.val) with
    | some r =>
      rw [Insert_hitI b hS hI]
      exact ⟨hokS, hokW, hokI, hSI, hWu, hWd⟩
    | none =>
      have hIvals := lookup_none_vals hokI hI
      cases hW : Lookup t.weak_interns s (hf s.val) with
      | some w =>
        obtain ⟨hmem, hwv⟩ := lookup_some hW
        cases b with
        | false =>
          rw [Insert_false_hitW hS hI hW]
          exact ⟨hokS, hokW, hokI, hSI, hWu, hWd⟩
        | true =>
          rw [Insert_true_hitW hS hI hW]
          have hwmem : w ∈ vals t.weak_interns := mem_vals_of_mem hmem
          have hrm : ∀ p ∈ Remove t.weak_interns w (hf s.val), p ∈ t.weak_interns :=
            fun p hp => (remove_sublist _ _ _).subset hp
          have hrmv : ∀ e ∈ vals (Remove t.weak_interns w (hf s.val)),
              e ∈ vals t.weak_interns :=
            fun e he => (vals_sublist (remove_sublist _ _ _)).subset he
          refine ⟨?_, fun p hp => hokW p (hrm p hp), hokI, ?_, ?_, ?_⟩
          · intro p hp
            rcases List.mem_append.mp hp with hp | hp
            · exact hokS p hp
            · simp only [List.mem_singleton] at hp
              rw [hp, hwv]
          · rw [vals_insertEntry, List.append_assoc, List.singleton_append,
              List.pairwise_middle (fun hxy => Ne.symm hxy), List.pairwise_cons]
            refine ⟨fun e he => ?_, hSI⟩
            rcases List.mem_append.mp he with he | he
            · rw [hwv]; exact fun hc => hSvals e he hc.symm
            · rw [hwv]; exact fun hc => hIvals e he hc.symm
          · exact hWu.sublist (vals_sublist (remove_sublist _ _ _))
          · intro w' hw' e he
            rw [vals_insertEntry, List.append_assoc, List.singleton_append] at he
            rcases List.mem_append.mp he with he | he
            · exact hWd w' (hrmv w' hw') e (List.mem_append_left _ he)
            rcases List.mem_cons.mp he with he | he
            · intro hc
              have hww : w' = w := eq_of_pairwise_val hWu (hrmv w' hw') hwmem (he ▸ hc)
              have : w ∉ vals (Remove t.weak_interns w (hf w.val)) :=
                not_mem_remove hokW hWu
              rw [hwv] at this
              exact this (hww ▸ hw')
            · exact hWd w' (hrmv w' hw') e (List.mem_append_right _ he)
      | none =>
        have hWvals := lookup_none_vals hokW hW
        cases b with
        | true =>
          rw [Insert_true_miss hS hI hW]
          refine ⟨?_, hokW, hokI, ?_, hWu, ?_⟩
          · intro p hp
            rcases List.mem_append.mp hp with hp | hp
            · exact hokS p hp
            · simp only [List.mem_singleton] at hp
              rw [hp]
          · rw [vals_insertEntry, List.append_assoc, List.singleton_append,
              List.pairwise_middle (fun hxy => Ne.symm hxy), List.pairwise_cons]
            refine ⟨fun e he => ?_, hSI⟩
            rcases List.mem_append.mp he with he | he
            · exact fun hc => hSvals e he hc.symm
            · exact fun hc => hIvals e he hc.symm
          · intro w' hw' e he
            rw [vals_insertEntry, List.append_assoc, List.singleton_append] at he
            rcases List.mem_append.mp he with he | he
            · exact hWd w' hw' e (List.mem_append_left _ he)
            rcases List.mem_cons.mp he with he | he
            · rw [he]; exact hWvals w' hw'
            · exact hWd w' hw' e (List.mem_append_right _ he)
        | false =>
          rw [Insert_false_miss hS hI hW]
          refine ⟨hokS, ?_, hokI, hSI, ?_, ?_⟩
          · intro p hp
            rcases List.mem_append.mp hp with hp | hp
            · exact hokW p hp
            · simp only [List.mem_singleton] at hp
              rw [hp]
          · rw [vals_insertEntry, List.pairwise_append]
            refine ⟨hWu, List.pairwise_singleton _ _, fun a ha b hb => ?_⟩
            simp only [List.mem_singleton] at hb
            rw [hb]
            exact hWvals a ha
          · intro w' hw' e he
            rw [vals_insertEntry] at hw'
            rcases List.mem_append.mp hw' with hw' | hw'
            · exact hWd w' hw' e he
            · simp only [List.mem_singleton] at hw'
              rcases List.mem_append.mp he with he | he
              · rw [hw']; exact fun hc => hSvals e he hc.symm
              · rw [hw']; exact fun hc => hIvals e he hc.symm

/-- Preservation of well-formedness by the sweep operation. -/
theorem WF_sweep {hf : Nat → Nat} {t : InternTable} (m : ArtString → Bool)
    (hwf : WF hf t) : WF hf (t.SweepInternTableWeaks m).1 := by
  obtain ⟨hokS, hokW, hokI, hSI, hWu, hWd⟩ := hwf
  have hsub : (sweepTable m t.weak_interns).1.Sublist t.weak_interns := by
    rw [sweepTable_filter]; exact List.filter_sublist _
  refine ⟨hokS, fun p hp => hokW p (hsub.subset hp), hokI, hSI,
    hWu.sublist (vals_sublist hsub),
    fun w hw e he => hWd w ((vals_sublist hsub).subset hw) e he⟩

theorem registerAll_foldl (hf : Nat → Nat) (img : List ArtString) :
    ∀ t : InternTable,
      img.foldl (fun t s => t.RegisterStrong hf s) t =
        { t with image_strong_interns :=
            t.image_strong_interns ++ img.map (fun s => (hf s.val, s)) } := by
  induction img with
  | nil => intro t; simp
  | cons a rest ih =>
    intro t
    rw [List.foldl_cons, ih]
    simp [InternTable.RegisterStrong, InsertEntry, GetHashCode]

/-- The state after startup registration of a deduplicated image source is
well-formed. -/
theorem WF_registerAll {hf : Nat → Nat} {img : List ArtString}
    (hdedup : img.Pairwise (fun a b => a.val ≠ b.val)) :
    WF hf (registerAll hf img) := by
  rw [registerAll, registerAll_foldl]
  refine ⟨by simp [hashOk, InternTable.empty], by simp [hashOk, InternTable.empty],
    ?_, ?_, by simp [vals, InternTable.empty], by simp [vals, InternTable.empty]⟩
  · intro p hp
    simp only [InternTable.empty, List.nil_append, List.mem_map] at hp
    obtain ⟨a, _, rfl⟩ := hp
    rfl
  · simp only [InternTable.empty, vals, List.nil_append, List.map_map]
    have : (Prod.snd ∘ fun s : ArtString => (hf s.val, s)) = id := rfl
    rw [this, List.map_id]
    exact hdedup

/-- Preservation of well-formedness by any sequence of post-startup
operations. -/
theorem WF_runOps {hf : Nat → Nat} (ops : List Op) :
    ∀ t : InternTable, WF hf t → WF hf (runOps hf t ops) := by
  induction ops with
  | nil => intro t h; exact h
  | cons op rest ih =>
    intro t h
    rw [runOps, List.foldl_cons]
    refine ih _ ?_
    cases op with
    | strongOp s => exact WF_insert s true h
    | weakOp s => exact WF_insert s false h
    | sweepOp m => exact WF_sweep m h

/-- Every state reachable from a deduplicated startup image is well-formed. -/
theorem Reachable_WF {hf : Nat → Nat} {t : InternTable}
    (hr : Reachable hf t) : WF hf t := by
  obtain ⟨img, ops, hdedup, rfl⟩ := hr
  exact WF_runOps ops _ (WF_registerAll hdedup)

/-- Well-formedness implies invariant I1. -/
theorem WF_I1 {hf : Nat → Nat} {t : InternTable} (hwf : WF hf t) : I1 t := by
  obtain ⟨_, _, _, hSI, _, hWd⟩ := hwf
  refine ⟨hSI.imp fun hne heq => absurd heq hne, ?_, ?_⟩
  · exact fun w hw e he => hWd w hw e (List.mem_append_left _ he)
  · intro w hw e he hc
    exact hWd w hw e he (hc ▸ rfl)

/-!  Claim theorems. -/

/-- Claim C5: `SweepInternTableWeaks(isMarked)` invokes the liveness predicate
exactly once per weak entry (the invocation trace equals the list of weak
entries), erases exactly the entries the predicate rejects, retains the rest,
leaves the strong and image tables unchanged, and decreases `Size` by exactly
the number of dead weak entries. -/
theorem sweep_spec (m : ArtString → Bool) (t : InternTable) :
    (t.SweepInternTableWeaks m).2 = vals t.weak_interns ∧
    (t.SweepInternTableWeaks m).1.weak_interns
      = t.weak_interns.filter (fun p => m p.2) ∧
    (t.SweepInternTableWeaks m).1.strong_interns = t.strong_interns ∧
    (t.SweepInternTableWeaks m).1.image_strong_interns = t.image_strong_interns ∧
    (t.SweepInternTableWeaks m).1.Size
      + (t.weak_interns.filter (fun p => !m p.2)).length = t.Size := by
  refine ⟨sweepTable_trace m _, sweepTable_filter m _, rfl, rfl, ?_⟩
  have hlen := length_filter_add_not m t.weak_interns
  simp only [InternTable.SweepInternTableWeaks, InternTable.Size, sweepTable_filter]
  omega

/-- Claim C6: `VisitRoots` invokes the visitor exactly once for every
reference currently in the strong table and never for a reference that is not
in the strong table (in particular one present only in the weak or image
table), in any reachable state. -/
theorem visitRoots_spec (hf : Nat → Nat) (t : InternTable)
    (hr : Reachable hf t) :
    (∀ r ∈ vals t.strong_interns, t.VisitRoots.count r = 1) ∧
    (∀ r, r ∉ vals t.strong_interns → t.VisitRoots.count r = 0) := by
  obtain ⟨_, _, _, hSI, _, _⟩ := Reachable_WF hr
  have hp : (vals t.strong_interns).Pairwise (fun a b => a.val ≠ b.val) :=
    (List.pairwise_append.mp hSI).1
  have hnd : (vals t.strong_interns).Nodup :=
    hp.imp fun hne heq => hne (congrArg ArtString.val heq)
  exact ⟨fun r hrm => List.count_eq_one_of_mem hnd hrm,
    fun r hrm => List.count_eq_zero.mpr hrm⟩

/-- Witness for C6 at a concrete reachable state with one strong entry. -/
theorem visitRoots_spec_witness :
    Reachable (fun v => v)
      (runOps (fun v => v) (registerAll (fun v => v) [])
        [Op.strongOp ⟨0, 7⟩]) ∧
    ((∀ r ∈ vals (runOps (fun v => v) (registerAll (fun v => v) [])
          [Op.strongOp ⟨0, 7⟩]).strong_interns,
        (runOps (fun v => v) (registerAll (fun v => v) [])
          [Op.strongOp ⟨0, 7⟩]).VisitRoots.count r = 1) ∧
     (∀ r, r ∉ vals (runOps (fun v => v) (registerAll (fun v => v) [])
          [Op.strongOp ⟨0, 7⟩]).strong_interns →
        (runOps (fun v => v) (registerAll (fun v => v) [])
          [Op.strongOp ⟨0, 7⟩]).VisitRoots.count r = 0)) :=
  ⟨⟨[], [Op.strongOp ⟨0, 7⟩], by decide, rfl⟩,
    visitRoots_spec (fun v => v) _ ⟨[], [Op.strongOp ⟨0, 7⟩], by decide, rfl⟩⟩

/-- Claim C7: `InternStrong(null)` and `InternWeak(null)` both return null,
leave the whole state (all three tables) unchanged, and do not alter the
result of `Size`. -/
theorem intern_null_safe (hf : Nat → Nat) (t : InternTable) :
    t.InternStrong hf none = (none, t) ∧
    t.InternWeak hf none = (none, t) ∧
    (t.InternStrong hf none).2.Size = t.Size ∧
    (t.InternWeak hf none).2.Size = t.Size :=
  ⟨rfl, rfl, rfl, rfl⟩

/-- Claim C9: `ContainsWeak(s)` returns true only if `s` itself, by reference
identity, is currently present in the weak table. -/
theorem containsWeak_identity (hf : Nat → Nat) (t : InternTable) (s : ArtString)
    (h : t.ContainsWeak hf s = true) : s ∈ vals t.weak_interns := by
  simp only [InternTable.ContainsWeak, decide_eq_true_eq] at h
  exact mem_vals_of_mem (lookup_some h).1

/-- Witness for C9: a weak table holding exactly the probed string. -/
theorem containsWeak_identity_witness :
    InternTable.ContainsWeak (fun v => v) ⟨[], [(7, ⟨3, 7⟩)], []⟩ ⟨3, 7⟩ = true ∧
    (⟨3, 7⟩ : ArtString) ∈ vals (⟨[], [(7, ⟨3, 7⟩)], []⟩ : InternTable).weak_interns :=
  ⟨by decide, containsWeak_identity (fun v => v) ⟨[], [(7, ⟨3, 7⟩)], []⟩ ⟨3, 7⟩ (by decide)⟩

/-- Claim C10: `ContainsWeak` computes the candidate's hash before any null
check, so a null argument faults (no null propagation), unlike `InternStrong`
and `InternWeak`, which handle null; for every non-null candidate the
operation is total. -/
theorem containsWeak_null_contract (hf : Nat → Nat) (t : InternTable) :
    t.ContainsWeakP hf none = none ∧
    (∀ s, t.ContainsWeakP hf (some s) = some (t.ContainsWeak hf s)) ∧
    t.InternStrong hf none = (none, t) ∧
    t.InternWeak hf none = (none, t) :=
  ⟨rfl, fun _ => rfl, rfl, rfl⟩

/-- Claim C1: a strong intern request probes strong, then image, then weak:
a value-equal strong entry is returned with the state unchanged; otherwise a
value-equal image entry is returned with the state unchanged; otherwise a
value-equal weak entry is promoted (moved from weak to strong) and returned;
otherwise the candidate itself is inserted into strong and returned. -/
theorem internStrong_priority_order (hf : Nat → Nat) (t : InternTable)
    (s : ArtString) (hwf : WF hf t) :
    (∀ e ∈ vals t.strong_interns, e.val = s.val →
      t.Insert hf s true = (e, t)) ∧
    ((∀ e ∈ vals t.strong_interns, e.val ≠ s.val) →
      ∀ e ∈ vals t.image_strong_interns, e.val = s.val →
        t.Insert hf s true = (e, t)) ∧
    ((∀ e ∈ vals t.strong_interns ++ vals t.image_strong_interns, e.val ≠ s.val) →
      ∀ w ∈ vals t.weak_interns, w.val = s.val →
        (t.Insert hf s true).1 = w ∧
        w ∈ vals (t.Insert hf s true).2.strong_interns ∧
        w ∉ vals (t.Insert hf s true).2.weak_interns ∧
        (t.Insert hf s true).2.image_strong_interns = t.image_strong_interns) ∧
    ((∀ e ∈ vals t.strong_interns ++ vals t.image_strong_interns
          ++ vals t.weak_interns, e.val ≠ s.val) →
      t.Insert hf s true
        = (s, { t with strong_interns := InsertEntry t.strong_interns s (hf s.val) })) := by
  obtain ⟨hokS, hokW, hokI, hSI, hWu, hWd⟩ := hwf
  have hpS : (vals t.strong_interns).Pairwise (fun a b => a.val ≠ b.val) :=
    (List.pairwise_append.mp hSI).1
  have hpI : (vals t.image_strong_interns).Pairwise (fun a b => a.val ≠ b.val) :=
    (List.pairwise_append.mp hSI).2.1
  refine ⟨?_, ?_, ?_, ?_⟩
  · intro e he hev
    exact Insert_hitS true (lookup_eq_of_mem hokS hpS he hev)
  · intro hns e he hev
    exact Insert_hitI true (lookup_none_of hns) (lookup_eq_of_mem hokI hpI he hev)
  · intro hns w hw hwv
    have hS := lookup_none_of (s := s) (h := hf s.val)
      (fun e he => hns e (List.mem_append_left _ he))
    have hI := lookup_none_of (s := s) (h := hf s.val)
      (fun e he => hns e (List.mem_append_right _ he))
    have hW := lookup_eq_of_mem hokW hWu hw hwv
    rw [Insert_true_hitW hS hI hW]
    refine ⟨rfl, ?_, ?_, rfl⟩
    · rw [vals_insertEntry]
      exact List.mem_append_right _ (List.mem_singleton.mpr rfl)
    · have := not_mem_remove (s := w) hokW hWu
      rw [hwv] at this
      exact this
  · intro hns
    exact Insert_true_miss
      (lookup_none_of fun e he =>
        hns e (List.mem_append_left _ (List.mem_append_left _ he)))
      (lookup_none_of fun e he =>
        hns e (List.mem_append_left _ (List.mem_append_right _ he)))
      (lookup_none_of fun e he => hns e (List.mem_append_right _ he))

/-- Witness for C1 at a concrete well-formed table. -/
theorem internStrong_priority_order_witness :
    WF (fun v => v) ⟨[(1, ⟨0, 1⟩)], [(2, ⟨1, 2⟩)], [(3, ⟨2, 3⟩)]⟩ ∧
    (∀ e ∈ vals (⟨[(1, ⟨0, 1⟩)], [(2, ⟨1, 2⟩)], [(3, ⟨2, 3⟩)]⟩ :
        InternTable).strong_interns, e.val = (⟨9, 1⟩ : ArtString).val →
      InternTable.Insert (fun v => v) ⟨[(1, ⟨0, 1⟩)], [(2, ⟨1, 2⟩)], [(3, ⟨2, 3⟩)]⟩
          ⟨9, 1⟩ true = (e, ⟨[(1, ⟨0, 1⟩)], [(2, ⟨1, 2⟩)], [(3, ⟨2, 3⟩)]⟩)) :=
  ⟨by decide,
    (internStrong_priority_order (fun v => v)
      ⟨[(1, ⟨0, 1⟩)], [(2, ⟨1, 2⟩)], [(3, ⟨2, 3⟩)]⟩ ⟨9, 1⟩ (by decide)).1⟩

/-- Claim C2: a weak intern request probes strong, then image, then weak, and
returns an existing value-equal entry with the state unchanged (no duplication
into weak); only when all three tables miss is the candidate inserted into the
weak table and returned. -/
theorem internWeak_priority_order (hf : Nat → Nat) (t : InternTable)
    (s : ArtString) (hwf : WF hf t) :
    (∀ e ∈ vals t.strong_interns, e.val = s.val →
      t.Insert hf s false = (e, t)) ∧
    ((∀ e ∈ vals t.strong_interns, e.val ≠ s.val) →
      ∀ e ∈ vals t.image_strong_interns, e.val = s.val →
        t.Insert hf s false = (e, t)) ∧
    ((∀ e ∈ vals t.strong_interns ++ vals t.image_strong_interns, e.val ≠ s.val) →
      ∀ w ∈ vals t.weak_interns, w.val = s.val →
        t.Insert hf s false = (w, t)) ∧
    ((∀ e ∈ vals t.strong_interns ++ vals t.image_strong_interns
          ++ vals t.weak_interns, e.val ≠ s.val) →
      t.Insert hf s false
        = (s, { t with weak_interns := InsertEntry t.weak_interns s (hf s.val) })) := by
  obtain ⟨hokS, hokW, hokI, hSI, hWu, hWd⟩ := hwf
  have hpS : (vals t.strong_interns).Pairwise (fun a b => a.val ≠ b.val) :=
    (List.pairwise_append.mp hSI).1
  have hpI : (vals t.image_strong_interns).Pairwise (fun a b => a.val ≠ b.val) :=
    (List.pairwise_append.mp hSI).2.1
  refine ⟨?_, ?_, ?_, ?_⟩
  · intro e he hev
    exact Insert_hitS false (lookup_eq_of_mem hokS hpS he hev)
  · intro hns e he hev
    exact Insert_hitI false (lookup_none_of hns) (lookup_eq_of_mem hokI hpI he hev)
  · intro hns w hw hwv
    exact Insert_false_hitW
      (lookup_none_of fun e he => hns e (List.mem_append_left _ he))
      (lookup_none_of fun e he => hns e (List.mem_append_right _ he))
      (lookup_eq_of_mem hokW hWu hw hwv)
  · intro hns
    exact Insert_false_miss
      (lookup_none_of fun e he =>
        hns e (List.mem_append_left _ (List.mem_append_left _ he)))
      (lookup_none_of fun e he =>
        hns e (List.mem_append_left _ (List.mem_append_right _ he)))
      (lookup_none_of fun e he => hns e (List.mem_append_right _ he))

/-- Witness for C2 at a concrete well-formed table. -/
theorem internWeak_priority_order_witness :
    WF (fun v => v) ⟨[(1, ⟨0, 1⟩)], [(2, ⟨1, 2⟩)], [(3, ⟨2, 3⟩)]⟩ ∧
    (∀ e ∈ vals (⟨[(1, ⟨0, 1⟩)], [(2, ⟨1, 2⟩)], [(3, ⟨2, 3⟩)]⟩ :
        InternTable).strong_interns, e.val = (⟨9, 1⟩ : ArtString).val →
      InternTable.Insert (fun v => v) ⟨[(1, ⟨0, 1⟩)], [(2, ⟨1, 2⟩)], [(3, ⟨2, 3⟩)]⟩
          ⟨9, 1⟩ false = (e, ⟨[(1, ⟨0, 1⟩)], [(2, ⟨1, 2⟩)], [(3, ⟨2, 3⟩)]⟩)) :=
  ⟨by decide,
    (internWeak_priority_order (fun v => v)
      ⟨[(1, ⟨0, 1⟩)], [(2, ⟨1, 2⟩)], [(3, ⟨2, 3⟩)]⟩ ⟨9, 1⟩ (by decide)).1⟩

/-- Claim C3: in a well-formed state with no value-equal entry in strong or
image, if `InternWeak(v)` returns `w`, then `InternStrong(v')` for any `v'`
value-equal to `v` returns `w` itself (not the caller's candidate), removes
`w` from the weak table (`ContainsWeak w` is false afterwards), and `w` is
subsequently enumerated by `VisitRoots`. -/
theorem weak_promotion (hf : Nat → Nat) (t : InternTable) (v v' : ArtString)
    (hwf : WF hf t) (hvv : v'.val = v.val)
    (hni : ∀ e ∈ vals t.strong_interns ++ vals t.image_strong_interns,
      e.val ≠ v.val) :
    ∀ w t₁, t.InternWeak hf (some v) = (some w, t₁) →
      (t₁.InternStrong hf (some v')).1 = some w ∧
      (t₁.InternStrong hf (some v')).2.ContainsWeak hf w = false ∧
      w ∈ (t₁.InternStrong hf (some v')).2.VisitRoots := by
  intro w t₁ heq
  have hS : Lookup t.strong_interns v (hf v.val) = none :=
    lookup_none_of fun e he => hni e (List.mem_append_left _ he)
  have hI : Lookup t.image_strong_interns v (hf v.val) = none :=
    lookup_none_of fun e he => hni e (List.mem_append_right _ he)
  -- Analyse the weak intern and extract what the first call established.
  have hstep : w ∈ vals t₁.weak_interns ∧ w.val = v.val ∧
      t₁.strong_interns = t.strong_interns ∧
      t₁.image_strong_interns = t.image_strong_interns ∧ WF hf t₁ := by
    have hwf₁ := WF_insert v false hwf
    cases hW : Lookup t.weak_interns v (hf v.val) with
    | some w₀ =>
      have hred := Insert_false_hitW hS hI hW
      simp only [InternTable.InternWeak, hred] at heq hwf₁
      injection heq with h1 h2
      obtain rfl : w₀ = w := Option.some.inj h1
      obtain rfl : t = t₁ := h2
      obtain ⟨hm, hv⟩ := lookup_some hW
      exact ⟨mem_vals_of_mem hm, hv, rfl, rfl, hwf₁⟩
    | none =>
      have hred := Insert_false_miss hS hI hW
      simp only [InternTable.InternWeak, hred] at heq hwf₁
      injection heq with h1 h2
      obtain rfl : v = w := Option.some.inj h1
      rw [← h2]
      refine ⟨?_, rfl, rfl, rfl, hwf₁⟩
      rw [vals_insertEntry]
      exact List.mem_append_right _ (List.mem_singleton.mpr rfl)
  obtain ⟨hwm, hwv, hts, hti, hokS₁, hokW₁, hokI₁, hSI₁, hWu₁, hWd₁⟩ := hstep
  -- The strong request on the second call.
  have hS' : Lookup t₁.strong_interns v' (hf v'.val) = none := by
    refine lookup_none_of fun e he => ?_
    rw [hts] at he
    rw [hvv]
    exact hni e (List.mem_append_left _ he)
  have hI' : Lookup t₁.image_strong_interns v' (hf v'.val) = none := by
    refine lookup_none_of fun e he => ?_
    rw [hti] at he
    rw [hvv]
    exact hni e (List.mem_append_right _ he)
  have hW' : Lookup t₁.weak_interns v' (hf v'.val) = some w :=
    lookup_eq_of_mem hokW₁ hWu₁ hwm (hvv ▸ hwv.symm ▸ rfl)
  have hred' := Insert_true_hitW hS' hI' hW'
  simp only [InternTable.InternStrong, hred']
  refine ⟨trivial, ?_, ?_⟩
  · apply decide_eq_false
    intro hc
    have hw2 : w ∈ vals (Remove t₁.weak_interns w (hf v'.val)) :=
      mem_vals_of_mem (lookup_some hc).1
    have hnm := not_mem_remove (s := w) hokW₁ hWu₁
    rw [show hf w.val = hf v'.val by rw [hwv, hvv]] at hnm
    exact hnm hw2
  · show w ∈ vals (InsertEntry t₁.strong_interns w (hf v'.val))
    rw [vals_insertEntry]
    exact List.mem_append_right _ (List.mem_singleton.mpr rfl)

/-- Witness for C3: a weak intern into the empty table followed by a strong
intern of a value-equal, reference-distinct candidate. -/
theorem weak_promotion_witness :
    WF (fun v => v) InternTable.empty ∧
    (⟨1, 4⟩ : ArtString).val = (⟨0, 4⟩ : ArtString).val ∧
    (∀ e ∈ vals InternTable.empty.strong_interns
        ++ vals InternTable.empty.image_strong_interns,
      e.val ≠ (⟨0, 4⟩ : ArtString).val) ∧
    (InternTable.empty.InternWeak (fun v => v) (some ⟨0, 4⟩)
      = (some ⟨0, 4⟩, ⟨[], [(4, ⟨0, 4⟩)], []⟩)) ∧
    (((⟨[], [(4, ⟨0, 4⟩)], []⟩ : InternTable).InternStrong (fun v => v)
        (some ⟨1, 4⟩)).1 = some ⟨0, 4⟩ ∧
     ((⟨[], [(4, ⟨0, 4⟩)], []⟩ : InternTable).InternStrong (fun v => v)
        (some ⟨1, 4⟩)).2.ContainsWeak (fun v => v) ⟨0, 4⟩ = false ∧
     (⟨0, 4⟩ : ArtString) ∈ ((⟨[], [(4, ⟨0, 4⟩)], []⟩ : InternTable).InternStrong
        (fun v => v) (some ⟨1, 4⟩)).2.VisitRoots) :=
  ⟨by decide, by decide, by decide, by decide,
    weak_promotion (fun v => v) InternTable.empty ⟨0, 4⟩ ⟨1, 4⟩
      (by decide) (by decide) (by decide) ⟨0, 4⟩ ⟨[], [(4, ⟨0, 4⟩)], []⟩ (by decide)⟩

/-- Counterexample to claim C4 as stated: under the claim's only precondition
(registration happens at startup, before any interning), two registrations of
value-equal but reference-distinct strings produce a reachable state in which
two references across strong ∪ image represent the same value, violating I1.
`RegisterStrong` performs no deduplication check (intern_table.cc:66-69). -/
theorem invariantI1_counterexample :
    ReachableAny (fun v => v)
      (runOps (fun v => v) (registerAll (fun v => v) [⟨0, 5⟩, ⟨1, 5⟩]) []) ∧
    ¬ I1 (runOps (fun v => v) (registerAll (fun v => v) [⟨0, 5⟩, ⟨1, 5⟩]) []) :=
  ⟨⟨[⟨0, 5⟩, ⟨1, 5⟩], [], rfl⟩, by decide⟩

/-- Claim C4 (amended): invariant I1 holds in every state reachable by startup
registrations followed by intern/sweep operations, provided additionally that
the registered image strings are pairwise value-distinct (the spec's "image
source is assumed already deduplicated"). -/
theorem invariantI1_preserved (hf : Nat → Nat) (t : InternTable)
    (hr : Reachable hf t) : I1 t :=
  WF_I1 (Reachable_WF hr)

/-- Witness for C4 at a concrete reachable state exercising registration,
strong and weak interning, promotion and a sweep. -/
theorem invariantI1_preserved_witness :
    Reachable (fun v => v)
      (runOps (fun v => v) (registerAll (fun v => v) [⟨0, 5⟩])
        [Op.strongOp ⟨1, 7⟩, Op.weakOp ⟨2, 9⟩, Op.strongOp ⟨3, 9⟩,
          Op.weakOp ⟨4, 11⟩, Op.sweepOp (fun _ => false)]) ∧
    I1 (runOps (fun v => v) (registerAll (fun v => v) [⟨0, 5⟩])
        [Op.strongOp ⟨1, 7⟩, Op.weakOp ⟨2, 9⟩, Op.strongOp ⟨3, 9⟩,
          Op.weakOp ⟨4, 11⟩, Op.sweepOp (fun _ => false)]) :=
  ⟨⟨[⟨0, 5⟩], _, by decide, rfl⟩,
    invariantI1_preserved (fun v => v) _ ⟨[⟨0, 5⟩], _, by decide, rfl⟩⟩

/-- Counterexample to claim C8 as stated: if a value-equal entry is already
present in the image table when `RegisterStrong(s)` runs (no strong entry
exists, satisfying the claim's stated precondition), a later `InternStrong`
returns that earlier image entry, not `s`. -/
theorem image_precedence_counterexample :
    vals ((InternTable.empty.RegisterStrong (fun v => v) ⟨0, 5⟩).RegisterStrong
        (fun v => v) ⟨1, 5⟩).strong_interns = [] ∧
    (⟨2, 5⟩ : ArtString).val = (⟨1, 5⟩ : ArtString).val ∧
    ((((InternTable.empty.RegisterStrong (fun v => v) ⟨0, 5⟩).RegisterStrong
        (fun v => v) ⟨1, 5⟩).InternStrong (fun v => v) (some ⟨2, 5⟩)).1
      = some ⟨0, 5⟩) ∧
    (⟨0, 5⟩ : ArtString) ≠ ⟨1, 5⟩ := by
  refine ⟨rfl, rfl, by decide, by decide⟩

/-- Claim C8 (amended): image precedence holds provided no value-equal entry
exists in the strong table nor, before the registration, in the image table:
then `InternStrong(s')` after `RegisterStrong(s)` returns the image instance
`s`, changes nothing, and `Size` (which is `|strong| + |weak|`, excluding
image entries) is unaffected by both operations. -/
theorem image_precedence (hf : Nat → Nat) (t : InternTable) (s s' : ArtString)
    (hvs : s'.val = s.val)
    (hstrong : ∀ e ∈ vals t.strong_interns, e.val ≠ s.val)
    (himage : ∀ e ∈ vals t.image_strong_interns, e.val ≠ s.val) :
    (t.RegisterStrong hf s).InternStrong hf (some s')
      = (some s, t.RegisterStrong hf s) ∧
    (t.RegisterStrong hf s).Size = t.Size ∧
    ((t.RegisterStrong hf s).InternStrong hf (some s')).2.Size = t.Size ∧
    ∀ u : InternTable, u.Size = u.strong_interns.length + u.weak_interns.length := by
  have hS : Lookup (t.RegisterStrong hf s).strong_interns s' (hf s'.val) = none := by
    refine lookup_none_of fun e he => ?_
    rw [hvs]
    exact hstrong e he
  have hI : Lookup (t.RegisterStrong hf s).image_strong_interns s' (hf s'.val)
      = some s := by
    show Lookup (t.image_strong_interns ++ [(GetHashCode hf s, s)]) s' (hf s'.val)
      = some s
    rw [lookup_append_of_none (lookup_none_of fun e he => hvs ▸ himage e he)]
    simp [Lookup, Equals, GetHashCode, hvs]
  have hred := Insert_hitI (t := t.RegisterStrong hf s) true hS hI
  constructor
  · simp only [InternTable.InternStrong, hred]
  · refine ⟨?_, ?_, fun u => rfl⟩
    · rfl
    · simp only [InternTable.InternStrong, hred]
      rfl

/-- Witness for C8: registering into an empty table and strong-interning a
value-equal, reference-distinct candidate. -/
theorem image_precedence_witness :
    (⟨1, 5⟩ : ArtString).val = (⟨0, 5⟩ : ArtString).val ∧
    (∀ e ∈ vals InternTable.empty.strong_interns, e.val ≠ (⟨0, 5⟩ : ArtString).val) ∧
    (∀ e ∈ vals InternTable.empty.image_strong_interns,
      e.val ≠ (⟨0, 5⟩ : ArtString).val) ∧
    ((InternTable.empty.RegisterStrong (fun v => v) ⟨0, 5⟩).InternStrong (fun v => v)
        (some ⟨1, 5⟩)
      = (some ⟨0, 5⟩, InternTable.empty.RegisterStrong (fun v => v) ⟨0, 5⟩) ∧
     (InternTable.empty.RegisterStrong (fun v => v) ⟨0, 5⟩).Size
       = InternTable.empty.Size ∧
     ((InternTable.empty.RegisterStrong (fun v => v) ⟨0, 5⟩).InternStrong (fun v => v)
        (some ⟨1, 5⟩)).2.Size = InternTable.empty.Size ∧
     ∀ u : InternTable, u.Size = u.strong_interns.length + u.weak_interns.length) :=
  ⟨by decide, by decide, by decide,
    image_precedence (fun v => v) InternTable.empty ⟨0, 5⟩ ⟨1, 5⟩
      (by decide) (by decide) (by decide)⟩

end InternSpec
